import Mathlib

/-
Verification development for the tonnetz hexagonal-grid instrument.

The JavaScript sources are shallowly embedded:
* the axial-coordinate geometry, camera transform and visible-range culler
  of `app.js` are modelled over the real numbers (JS floating point is
  idealised as exact real arithmetic, which is what the documented
  algebraic properties are about);
* the frequency / label-fraction arithmetic is modelled over the exact
  rationals;
* the tone-voice lifecycle (`playTone` / `stopTone`) is modelled as a
  state machine with explicit association-list maps mirroring the two
  JavaScript `Map`s plus a log of the oscillator voices that have been
  started, so that voice exclusivity can be stated and proved.
-/

namespace Tonnetz

/-! ### Axial geometry, from `app.js`

`baseHexSize` is the constant `this.baseHexSize = 50` of the `HexGrid`
constructor in `app.js`. -/

noncomputable section

def baseHexSize : ℝ := 50

/-- `axialToPixel(q, r)` from `app.js`:
`x = baseHexSize * (sqrt(3) * r + sqrt(3)/2 * q)`,
`y = baseHexSize * (3/2 * -q)`. -/
def axialToPixel (q r : ℝ) : ℝ × ℝ :=
  (baseHexSize * (Real.sqrt 3 * r + Real.sqrt 3 / 2 * q),
   baseHexSize * (3 / 2 * -q))

/-- The fractional axial coordinates computed inside `pixelToAxial(x, y)` in
`app.js` before the call to `axialRound`:
`q = (-2/3 * y) / baseHexSize`, `r = x / (sqrt(3) * baseHexSize) - q/2`. -/
def pixelToAxialFrac (x y : ℝ) : ℝ × ℝ :=
  ((-2 / 3 * y) / baseHexSize,
   x / (Real.sqrt 3 * baseHexSize) - ((-2 / 3 * y) / baseHexSize) / 2)

/-- `axialRound(q, r)` from `app.js`.  `Math.round` rounds half-up, exactly
like Mathlib's `round`.  The first branch recomputes `rq` from the other two
rounded coordinates, the second recomputes `rr`. -/
def axialRound (q r : ℝ) : ℤ × ℤ :=
  let s := -q - r
  let rq := round q
  let rr := round r
  let rs := round s
  let qDiff := |(rq : ℝ) - q|
  let rDiff := |(rr : ℝ) - r|
  let sDiff := |(rs : ℝ) - s|
  if qDiff > rDiff ∧ qDiff > sDiff then (-rr - rs, rr)
  else if rDiff > sDiff then (rq, -rq - rs)
  else (rq, rr)

/-- `pixelToAxial(x, y)` from `app.js`: the fractional inverse transform
followed by `axialRound`. -/
def pixelToAxial (x y : ℝ) : ℤ × ℤ :=
  axialRound (pixelToAxialFrac x y).1 (pixelToAxialFrac x y).2

end

lemma sqrt3_pos : 0 < Real.sqrt 3 :=
  Real.sqrt_pos.mpr (by norm_num)

lemma sqrt3_ne_zero : Real.sqrt 3 ≠ 0 :=
  ne_of_gt sqrt3_pos

/-- The fractional inverse is an exact algebraic inverse of `axialToPixel`,
for arbitrary real axial coordinates. -/
lemma pixelToAxialFrac_axialToPixel (q r : ℝ) :
    pixelToAxialFrac (axialToPixel q r).1 (axialToPixel q r).2 = (q, r) := by
  unfold pixelToAxialFrac axialToPixel baseHexSize
  have h3 := sqrt3_ne_zero
  refine Prod.ext ?_ ?_ <;> · dsimp only; field_simp; ring

/-- `axialRound` is the identity on exact integer coordinates. -/
lemma axialRound_intCast (q r : ℤ) :
    axialRound (q : ℝ) (r : ℝ) = (q, r) := by
  unfold axialRound
  have hs : -(q : ℝ) - (r : ℝ) = ((-q - r : ℤ) : ℝ) := by push_cast; ring
  rw [hs]
  simp [round_intCast]

/-- Claim C1: for every pair of integers `(q, r)`, converting to a world
point with `axialToPixel`, applying the fractional part of `pixelToAxial`
(the algebraic inverse before rounding) and then `axialRound` recovers
exactly `(q, r)`. -/
theorem axial_roundtrip (q r : ℤ) :
    axialRound (pixelToAxialFrac (axialToPixel (q : ℝ) (r : ℝ)).1
        (axialToPixel (q : ℝ) (r : ℝ)).2).1
      (pixelToAxialFrac (axialToPixel (q : ℝ) (r : ℝ)).1
        (axialToPixel (q : ℝ) (r : ℝ)).2).2 = (q, r) := by
  rw [pixelToAxialFrac_axialToPixel]
  exact axialRound_intCast q r

/-- Claim C2: `axialRound` rounds `q`, `r` and the implicit `s = -q-r`
independently, compares the three rounding residuals, and corrects whichever
of `q` or `r` has the strictly largest residual by recomputing it from the
other two rounded coordinates; the returned coordinates are integers and,
with the implicit third coordinate `s = -q-r`, sum to zero exactly. -/
theorem axialRound_spec (q r : ℝ) :
    axialRound q r =
      (if |((round q : ℤ) : ℝ) - q| > |((round r : ℤ) : ℝ) - r| ∧
          |((round q : ℤ) : ℝ) - q| > |((round (-q - r) : ℤ) : ℝ) - (-q - r)| then
        (-(round r) - round (-q - r), round r)
      else if |((round r : ℤ) : ℝ) - r| > |((round (-q - r) : ℤ) : ℝ) - (-q - r)| then
        (round q, -(round q) - round (-q - r))
      else (round q, round r)) ∧
    (axialRound q r).1 + (axialRound q r).2 +
      (-(axialRound q r).1 - (axialRound q r).2) = 0 := by
  exact ⟨rfl, by ring⟩

/-! ### Camera, from `app.js` -/

/-- The camera state of `app.js`: pan offset `(x, y)` in world units and a
zoom factor. -/
structure Camera where
  x : ℝ
  y : ℝ
  zoom : ℝ

noncomputable section

/-- `screenToWorld(screenX, screenY)` from `app.js`; `width`/`height` are
the `this.width`/`this.height` viewport fields. -/
def screenToWorld (cam : Camera) (width height sx sy : ℝ) : ℝ × ℝ :=
  ((sx - width / 2) / cam.zoom - cam.x,
   (sy - height / 2) / cam.zoom - cam.y)

/-- `worldToScreen(worldX, worldY)` from `app.js`. -/
def worldToScreen (cam : Camera) (width height wx wy : ℝ) : ℝ × ℝ :=
  ((wx + cam.x) * cam.zoom + width / 2,
   (wy + cam.y) * cam.zoom + height / 2)

/-- `handleWheel(e)` from `app.js` (its camera effect): pick the zoom factor
from the wheel direction, clamp the new zoom to `[0.5, 5]`, then adjust the
pan by the difference of the world point under the mouse before and after
the zoom change.  `deltaYPos` is `e.deltaY > 0`. -/
def handleWheel (cam : Camera) (enablePanZoom : Bool) (width height : ℝ)
    (deltaYPos : Bool) (mouseX mouseY : ℝ) : Camera :=
  if enablePanZoom = false then cam
  else
    let zoomFactor : ℝ := if deltaYPos then 0.9 else 1.1
    let newZoom := max 0.5 (min 5 (cam.zoom * zoomFactor))
    let worldPosBefore := screenToWorld cam width height mouseX mouseY
    let cam' : Camera := { cam with zoom := newZoom }
    let worldPosAfter := screenToWorld cam' width height mouseX mouseY
    { cam' with
      x := cam'.x + (worldPosBefore.1 - worldPosAfter.1),
      y := cam'.y + (worldPosBefore.2 - worldPosAfter.2) }

/-- The candidate axial range computed by `getVisibleHexagons()` in `app.js`
before the secondary on-screen pixel-bounds filter: the four viewport
corners are sent to world space, converted with `pixelToAxial`, and the
component-wise min/max is widened by the fixed margin `3`.  Returned as
`(minQ, maxQ, minR, maxR)`. -/
def visibleRange (cam : Camera) (width height : ℝ) : ℤ × ℤ × ℤ × ℤ :=
  let topLeft := screenToWorld cam width height 0 0
  let bottomRight := screenToWorld cam width height width height
  let topLeftHex := pixelToAxial topLeft.1 topLeft.2
  let bottomRightHex := pixelToAxial bottomRight.1 bottomRight.2
  let topRightHex := pixelToAxial bottomRight.1 topLeft.2
  let bottomLeftHex := pixelToAxial topLeft.1 bottomRight.2
  let margin : ℤ := 3
  (min (min topLeftHex.1 bottomRightHex.1) (min topRightHex.1 bottomLeftHex.1) - margin,
   max (max topLeftHex.1 bottomRightHex.1) (max topRightHex.1 bottomLeftHex.1) + margin,
   min (min topLeftHex.2 bottomRightHex.2) (min topRightHex.2 bottomLeftHex.2) - margin,
   max (max topLeftHex.2 bottomRightHex.2) (max topRightHex.2 bottomLeftHex.2) + margin)

end

/-- Claim C7 fails on the code: `handleWheel` adjusts the pan by
`before - after`, but with this code's `screenToWorld` convention (pan is
subtracted after dividing by zoom) keeping the anchor fixed requires the
opposite sign, `after - before`.  Concretely: camera `(0, 0, zoom 1)`,
viewport `800 × 600`, a zoom-in wheel event (factor `1.1`) anchored at the
screen point `(0, 0)` moves the world point under the anchor from `-400` to
`-3600/11`. -/
theorem handleWheel_moves_anchor_point :
    (screenToWorld (handleWheel ⟨0, 0, 1⟩ true 800 600 false 0 0) 800 600 0 0).1 ≠
      (screenToWorld (⟨0, 0, 1⟩ : Camera) 800 600 0 0).1 := by
  unfold handleWheel screenToWorld
  norm_num [min_def, max_def]

/-! ### Culler completeness -/

/-- `axialRound` unfolded (the branch structure of the source). -/
lemma axialRound_eq (q r : ℝ) :
    axialRound q r =
      if |((round q : ℤ) : ℝ) - q| > |((round r : ℤ) : ℝ) - r| ∧
          |((round q : ℤ) : ℝ) - q| > |((round (-q - r) : ℤ) : ℝ) - (-q - r)| then
        (-(round r) - round (-q - r), round r)
      else if |((round r : ℤ) : ℝ) - r| > |((round (-q - r) : ℤ) : ℝ) - (-q - r)| then
        (round q, -(round q) - round (-q - r))
      else (round q, round r) := rfl

/-- Each output coordinate of `axialRound` is within `1` of the
corresponding fractional input: in the corrected branches the error is the
sum of the two residuals of the other coordinates, each at most `1/2`. -/
lemma axialRound_close (q r : ℝ) :
    |((axialRound q r).1 : ℝ) - q| ≤ 1 ∧ |((axialRound q r).2 : ℝ) - r| ≤ 1 := by
  have hq := abs_le.mp (abs_sub_round q)
  have hr := abs_le.mp (abs_sub_round r)
  have hs := abs_le.mp (abs_sub_round (-q - r))
  rw [axialRound_eq]
  split_ifs with h1 h2 <;>
    refine ⟨abs_le.mpr ⟨?_, ?_⟩, abs_le.mpr ⟨?_, ?_⟩⟩ <;>
    · push_cast
      linarith [hq.1, hq.2, hr.1, hr.2, hs.1, hs.2]

lemma pixelToAxial_close (x y : ℝ) :
    |((pixelToAxial x y).1 : ℝ) - (pixelToAxialFrac x y).1| ≤ 1 ∧
    |((pixelToAxial x y).2 : ℝ) - (pixelToAxialFrac x y).2| ≤ 1 :=
  axialRound_close _ _

lemma pixelToAxialFrac_fst (x y : ℝ) :
    (pixelToAxialFrac x y).1 = (-2 / 3 * y) / 50 := by
  simp [pixelToAxialFrac, baseHexSize]

lemma pixelToAxialFrac_snd (x y : ℝ) :
    (pixelToAxialFrac x y).2 =
      x / (Real.sqrt 3 * 50) - ((-2 / 3 * y) / 50) / 2 := by
  simp [pixelToAxialFrac, baseHexSize]

/-- Claim C5: for every camera state with zoom inside the clamped bounds
and every viewport, every axial coordinate whose projected cell centre lies
within the viewport bounds is contained in the candidate range enumerated
by `getVisibleHexagons` before its secondary on-screen filter. -/
theorem getVisibleHexagons_no_false_negative (cam : Camera) (w h : ℝ) (q r : ℤ)
    (hz1 : 1 / 2 ≤ cam.zoom) (hz5 : cam.zoom ≤ 5) (hw : 0 ≤ w) (hh : 0 ≤ h)
    (hx0 : 0 ≤ (worldToScreen cam w h (axialToPixel q r).1 (axialToPixel q r).2).1)
    (hx1 : (worldToScreen cam w h (axialToPixel q r).1 (axialToPixel q r).2).1 ≤ w)
    (hy0 : 0 ≤ (worldToScreen cam w h (axialToPixel q r).1 (axialToPixel q r).2).2)
    (hy1 : (worldToScreen cam w h (axialToPixel q r).1 (axialToPixel q r).2).2 ≤ h) :
    (visibleRange cam w h).1 ≤ q ∧ q ≤ (visibleRange cam w h).2.1 ∧
    (visibleRange cam w h).2.2.1 ≤ r ∧ r ≤ (visibleRange cam w h).2.2.2 := by
  have hz : 0 < cam.zoom := lt_of_lt_of_le (by norm_num) hz1
  have hS : 0 < Real.sqrt 3 * 50 := by positivity
  simp only [worldToScreen] at hx0 hx1 hy0 hy1
  set px := (axialToPixel (q : ℝ) (r : ℝ)).1 with hpx
  set py := (axialToPixel (q : ℝ) (r : ℝ)).2 with hpy
  set tlx := (0 - w / 2) / cam.zoom - cam.x with htlx
  set brx := (w - w / 2) / cam.zoom - cam.x with hbrx
  set tly := (0 - h / 2) / cam.zoom - cam.y with htly
  set bry := (h - h / 2) / cam.zoom - cam.y with hbry
  clear_value px py tlx brx tly bry
  -- the world point lies in the world-space rectangle spanned by the corners
  have hpx1 : tlx ≤ px := by
    have h1 : 0 - w / 2 ≤ (px + cam.x) * cam.zoom := by linarith
    have h2 := (div_le_iff₀ hz).mpr h1
    rw [htlx]; linarith
  have hpx2 : px ≤ brx := by
    have h1 : (px + cam.x) * cam.zoom ≤ w - w / 2 := by linarith
    have h2 := (le_div_iff₀ hz).mpr h1
    rw [hbrx]; linarith
  have hpy1 : tly ≤ py := by
    have h1 : 0 - h / 2 ≤ (py + cam.y) * cam.zoom := by linarith
    have h2 := (div_le_iff₀ hz).mpr h1
    rw [htly]; linarith
  have hpy2 : py ≤ bry := by
    have h1 : (py + cam.y) * cam.zoom ≤ h - h / 2 := by linarith
    have h2 := (le_div_iff₀ hz).mpr h1
    rw [hbry]; linarith
  -- the fractional axial coordinates of the cell centre are exactly (q, r)
  have hfrac := pixelToAxialFrac_axialToPixel (q : ℝ) (r : ℝ)
  have hfq : (-2 / 3 * py) / 50 = (q : ℝ) := by
    rw [← pixelToAxialFrac_fst px py, hpx, hpy, hfrac]
  have hfr : px / (Real.sqrt 3 * 50) - ((-2 / 3 * py) / 50) / 2 = (r : ℝ) := by
    rw [← pixelToAxialFrac_snd px py, hpx, hpy, hfrac]
  -- monotone division bounds for the x-part of the r coordinate
  have hdiv1 : tlx / (Real.sqrt 3 * 50) ≤ px / (Real.sqrt 3 * 50) := by gcongr
  have hdiv2 : px / (Real.sqrt 3 * 50) ≤ brx / (Real.sqrt 3 * 50) := by gcongr
  -- rounded corner coordinates are within 1 of the fractional corner values
  have htl := pixelToAxial_close tlx tly
  have hbr := pixelToAxial_close brx bry
  have hbl := pixelToAxial_close tlx bry
  rw [pixelToAxialFrac_fst, pixelToAxialFrac_snd] at htl hbr hbl
  have htl1 := abs_le.mp htl.1
  have htl2 := abs_le.mp htl.2
  have hbr2 := abs_le.mp hbr.2
  have hbl1 := abs_le.mp hbl.1
  -- integer bounds for the relevant corner coordinates
  have hglQ : (pixelToAxial tlx bry).1 ≤ q + 1 := by
    have : ((pixelToAxial tlx bry).1 : ℝ) ≤ (q : ℝ) + 1 := by linarith [hbl1.2]
    exact_mod_cast this
  have hguQ : q - 1 ≤ (pixelToAxial tlx tly).1 := by
    have : (q : ℝ) - 1 ≤ ((pixelToAxial tlx tly).1 : ℝ) := by linarith [htl1.1]
    exact_mod_cast this
  have hglR : (pixelToAxial tlx tly).2 ≤ r + 1 := by
    have : ((pixelToAxial tlx tly).2 : ℝ) ≤ (r : ℝ) + 1 := by
      linarith [htl2.2, hdiv1]
    exact_mod_cast this
  have hguR : r - 1 ≤ (pixelToAxial brx bry).2 := by
    have : (r : ℝ) - 1 ≤ ((pixelToAxial brx bry).2 : ℝ) := by
      linarith [hbr2.1, hdiv2]
    exact_mod_cast this
  -- assemble: the candidate range contains (q, r)
  simp only [visibleRange, screenToWorld, ← htlx, ← hbrx, ← htly, ← hbry]
  refine ⟨?_, ?_, ?_, ?_⟩
  · have hm : min (min (pixelToAxial tlx tly).1 (pixelToAxial brx bry).1)
        (min (pixelToAxial brx tly).1 (pixelToAxial tlx bry).1) ≤
        (pixelToAxial tlx bry).1 :=
      (min_le_right _ _).trans (min_le_right _ _)
    omega
  · have hm : (pixelToAxial tlx tly).1 ≤
        max (max (pixelToAxial tlx tly).1 (pixelToAxial brx bry).1)
          (max (pixelToAxial brx tly).1 (pixelToAxial tlx bry).1) :=
      (le_max_left _ _).trans (le_max_left _ _)
    omega
  · have hm : min (min (pixelToAxial tlx tly).2 (pixelToAxial brx bry).2)
        (min (pixelToAxial brx tly).2 (pixelToAxial tlx bry).2) ≤
        (pixelToAxial tlx tly).2 :=
      (min_le_left _ _).trans (min_le_left _ _)
    omega
  · have hm : (pixelToAxial brx bry).2 ≤
        max (max (pixelToAxial tlx tly).2 (pixelToAxial brx bry).2)
          (max (pixelToAxial brx tly).2 (pixelToAxial tlx bry).2) :=
      (le_max_right _ _).trans (le_max_left _ _)
    omega

/-- Witness for C5: with the camera at the origin at zoom `1` and a
degenerate `0 × 0` viewport, the origin cell `(0, 0)` projects onto the
(single-point) viewport and is inside the candidate range. -/
theorem getVisibleHexagons_no_false_negative_witness :
    (1 : ℝ) / 2 ≤ (1 : ℝ) ∧
    0 ≤ (worldToScreen ⟨0, 0, 1⟩ 0 0 (axialToPixel 0 0).1 (axialToPixel 0 0).2).1 ∧
    (visibleRange ⟨0, 0, 1⟩ 0 0).1 ≤ 0 ∧ (0 : ℤ) ≤ (visibleRange ⟨0, 0, 1⟩ 0 0).2.1 ∧
    (visibleRange ⟨0, 0, 1⟩ 0 0).2.2.1 ≤ 0 ∧ (0 : ℤ) ≤ (visibleRange ⟨0, 0, 1⟩ 0 0).2.2.2 := by
  have hscreen : worldToScreen ⟨0, 0, 1⟩ 0 0 (axialToPixel 0 0).1 (axialToPixel 0 0).2 =
      ((0 : ℝ), (0 : ℝ)) := by
    norm_num [worldToScreen, axialToPixel]
  have h := getVisibleHexagons_no_false_negative ⟨0, 0, 1⟩ 0 0 0 0
    (by norm_num) (by norm_num) le_rfl le_rfl
    (by rw [Int.cast_zero, hscreen]) (by rw [Int.cast_zero, hscreen])
    (by rw [Int.cast_zero, hscreen]) (by rw [Int.cast_zero, hscreen])
  exact ⟨by norm_num, by rw [hscreen], h.1, h.2.1, h.2.2.1, h.2.2.2⟩

/-! ### Frequency and label-fraction arithmetic

The numeric computations of `drawHexagon` and `playTone` in `app.js`,
modelled over the exact rationals.  `Math.ceil(x / 2)` / `Math.floor(x / 2)`
on integer inputs are `ceilHalf` / `floorHalf`; the JS `%` on the
non-negative operands used here agrees with `Int.emod`. -/

/-- `Math.ceil(m / 2)` for an integer `m`. -/
def ceilHalf (m : ℤ) : ℤ := ⌈(m : ℚ) / 2⌉

/-- `Math.floor(m / 2)` for an integer `m`. -/
def floorHalf (m : ℤ) : ℤ := ⌊(m : ℚ) / 2⌋

/-- `baseFreq = 261.625565` (middle C) from `playTone` in `app.js`. -/
def baseFreq : ℚ := 261.625565

/-- `qFreq = Math.pow(1.25, q)` from `playTone` (and `drawHexagon`). -/
def qFreq (q : ℤ) : ℚ := (1.25 : ℚ) ^ q

/-- `rFreq = Math.pow(1.5, Math.ceil(r/2)) * Math.pow(0.75, Math.floor(r/2))`
from `playTone` (and `drawHexagon`). -/
def rFreq (r : ℤ) : ℚ := (1.5 : ℚ) ^ ceilHalf r * (0.75 : ℚ) ^ floorHalf r

/-- `frequency = baseFreq * qFreq * rFreq` from `playTone` in `app.js`. -/
def frequency (q r : ℤ) : ℚ := baseFreq * qFreq q * rFreq r

/-- The `q`-factor of `numerator` in `drawHexagon`:
`q > 0 ? Math.pow(5, q) : Math.pow(4, -q)`. -/
def qNumer (q : ℤ) : ℕ := if 0 < q then 5 ^ q.toNat else 4 ^ (-q).toNat

/-- The `q`-factor of `denominator` in `drawHexagon`:
`q > 0 ? Math.pow(4, q) : Math.pow(5, -q)`. -/
def qDenom (q : ℤ) : ℕ := if 0 < q then 4 ^ q.toNat else 5 ^ (-q).toNat

/-- The `r`-factor of `numerator` in `drawHexagon`:
`r > 0 ? 3^r : 2^(ceil(|r|/2)*3 - (|r| % 2 === 1 ? 1 : 0))`. -/
def rNumer (r : ℤ) : ℕ :=
  if 0 < r then 3 ^ r.toNat
  else 2 ^ (ceilHalf |r| * 3 - if |r| % 2 = 1 then 1 else 0).toNat

/-- The `r`-factor of `denominator` in `drawHexagon`:
`r > 0 ? 2^(ceil(r/2)*3 - (r % 2 === 1 ? 2 : 0)) : 3^(-r)`. -/
def rDenom (r : ℤ) : ℕ :=
  if 0 < r then 2 ^ (ceilHalf r * 3 - if r % 2 = 1 then 2 else 0).toNat
  else 3 ^ (-r).toNat

/-- `numerator` from `drawHexagon` in `app.js` (a positive integer). -/
def numerator (q r : ℤ) : ℕ := qNumer q * rNumer r

/-- `denominator` from `drawHexagon` in `app.js` (a positive integer). -/
def denominator (q r : ℤ) : ℕ := qDenom q * rDenom r

/-- The recursive Euclidean `gcd` arrow function inside `simplifyFraction`:
`(a, b) => (b === 0 ? a : gcd(b, a % b))`. -/
def gcdRec (a b : ℕ) : ℕ :=
  if h : b = 0 then a else gcdRec b (a % b)
termination_by b
decreasing_by exact Nat.mod_lt _ (Nat.pos_of_ne_zero h)

/-- `simplifyFraction(numerator, denominator)` from `app.js`.  The JS `/` is
exact real division, but since `gcdRec n d` divides both arguments the
natural-number division used here coincides with it. -/
def simplifyFraction (n d : ℕ) : ℕ × ℕ :=
  (n / gcdRec n d, d / gcdRec n d)

lemma gcdRec_eq_gcd : ∀ b a : ℕ, gcdRec a b = Nat.gcd a b := by
  intro b
  induction b using Nat.strong_induction_on with
  | _ b ih =>
    intro a
    rw [gcdRec]
    split_ifs with h
    · subst h; exact (Nat.gcd_zero_right a).symm
    · rw [ih (a % b) (Nat.mod_lt a (Nat.pos_of_ne_zero h)) b,
        Nat.gcd_comm b (a % b), ← Nat.gcd_rec b a, Nat.gcd_comm b a]

lemma simplifyFraction_coprime (n d : ℕ) (hd : 0 < d) :
    Nat.Coprime (simplifyFraction n d).1 (simplifyFraction n d).2 := by
  have hg : 0 < Nat.gcd n d := Nat.gcd_pos_of_pos_right n hd
  simp only [simplifyFraction, gcdRec_eq_gcd]
  exact Nat.coprime_div_gcd_div_gcd hg

lemma simplifyFraction_val (n d : ℕ) (hd : 0 < d) :
    ((simplifyFraction n d).1 : ℚ) / ((simplifyFraction n d).2 : ℚ) =
      (n : ℚ) / (d : ℚ) := by
  have hg : 0 < Nat.gcd n d := Nat.gcd_pos_of_pos_right n hd
  have hgq : ((Nat.gcd n d : ℕ) : ℚ) ≠ 0 := by exact_mod_cast hg.ne'
  simp only [simplifyFraction, gcdRec_eq_gcd]
  rw [Nat.cast_div (Nat.gcd_dvd_left n d) hgq,
    Nat.cast_div (Nat.gcd_dvd_right n d) hgq,
    div_div_div_comm, div_self hgq, div_one]

/-- Claim C9: the recursive Euclidean gcd helper inside `simplifyFraction`
terminates (it is a total function agreeing with `Nat.gcd`), and for
positive inputs `simplifyFraction` returns a coprime pair with the same
rational value. -/
theorem simplifyFraction_lowest_terms (n d : ℕ) (hn : 0 < n) (hd : 0 < d) :
    gcdRec n d = Nat.gcd n d ∧
    Nat.Coprime (simplifyFraction n d).1 (simplifyFraction n d).2 ∧
    ((simplifyFraction n d).1 : ℚ) / ((simplifyFraction n d).2 : ℚ) =
      (n : ℚ) / (d : ℚ) :=
  ⟨gcdRec_eq_gcd d n, simplifyFraction_coprime n d hd,
    simplifyFraction_val n d hd⟩

/-- Witness for C9 at the concrete input `(6, 4)`. -/
theorem simplifyFraction_lowest_terms_witness :
    ((0 : ℕ) < 6 ∧ (0 : ℕ) < 4) ∧
    (gcdRec 6 4 = Nat.gcd 6 4 ∧
     Nat.Coprime (simplifyFraction 6 4).1 (simplifyFraction 6 4).2 ∧
     ((simplifyFraction 6 4).1 : ℚ) / ((simplifyFraction 6 4).2 : ℚ) =
       (6 : ℚ) / (4 : ℚ)) :=
  ⟨⟨by norm_num, by norm_num⟩,
    simplifyFraction_lowest_terms 6 4 (by norm_num) (by norm_num)⟩

/-- The `playTone` frequency computation of the earlier variant
(`src/unnamed/part_000`): `baseFreq = 220`, `qFreq = 1.5^q`,
`rFreq = 1.25^r`, `frequency = baseFreq * qFreq * rFreq`. -/
def frequencyV0 (q r : ℤ) : ℚ := 220 * (1.5 : ℚ) ^ q * (1.25 : ℚ) ^ r

/-- Claim C8: in the variant with base frequency `220` and ratios
`1.5^q * 1.25^r`, `playTone(1, 0)` computes exactly `330` Hz. -/
theorem frequencyV0_one_zero : frequencyV0 1 0 = 330 := by
  norm_num [frequencyV0]

lemma cast_pow_toNat (b : ℕ) (e : ℤ) (he : 0 ≤ e) :
    ((b ^ e.toNat : ℕ) : ℚ) = (b : ℚ) ^ e := by
  rw [Nat.cast_pow, ← zpow_natCast]
  congr 1
  exact Int.toNat_of_nonneg he

lemma ceilHalf_two_mul (k : ℤ) : ceilHalf (2 * k) = k := by
  unfold ceilHalf
  rw [show ((2 * k : ℤ) : ℚ) / 2 = (k : ℚ) by push_cast; ring, Int.ceil_intCast]

lemma floorHalf_two_mul (k : ℤ) : floorHalf (2 * k) = k := by
  unfold floorHalf
  rw [show ((2 * k : ℤ) : ℚ) / 2 = (k : ℚ) by push_cast; ring, Int.floor_intCast]

lemma ceilHalf_two_mul_add_one (k : ℤ) : ceilHalf (2 * k + 1) = k + 1 := by
  unfold ceilHalf
  rw [show ((2 * k + 1 : ℤ) : ℚ) / 2 = 1 / 2 + (k : ℚ) by push_cast; ring,
    Int.ceil_add_int, show ⌈(1 / 2 : ℚ)⌉ = 1 by rw [Int.ceil_eq_iff] <;> norm_num]
  omega

lemma floorHalf_two_mul_add_one (k : ℤ) : floorHalf (2 * k + 1) = k := by
  unfold floorHalf
  rw [show ((2 * k + 1 : ℤ) : ℚ) / 2 = 1 / 2 + (k : ℚ) by push_cast; ring,
    Int.floor_add_int, show ⌊(1 / 2 : ℚ)⌋ = 0 by rw [Int.floor_eq_iff] <;> norm_num]
  omega

lemma qPart (q : ℤ) : (qNumer q : ℚ) / (qDenom q : ℚ) = (1.25 : ℚ) ^ q := by
  unfold qNumer qDenom
  split_ifs with h
  · rw [cast_pow_toNat 5 q h.le, cast_pow_toNat 4 q h.le, ← div_zpow]
    norm_num
  · have h' : 0 ≤ -q := by omega
    rw [cast_pow_toNat 4 (-q) h', cast_pow_toNat 5 (-q) h', ← div_zpow,
      show ((4 : ℕ) : ℚ) / ((5 : ℕ) : ℚ) = (1.25 : ℚ)⁻¹ by norm_num,
      inv_zpow, ← zpow_neg, neg_neg]

lemma pow_nine_eighths (k : ℤ) :
    (3 : ℚ) ^ (2 * k) / (2 : ℚ) ^ (3 * k) = (1.5 : ℚ) ^ k * (0.75 : ℚ) ^ k := by
  have h3 : (3 : ℚ) ^ (2 * k) = (9 : ℚ) ^ k := by
    rw [zpow_mul]; norm_num
  have h2 : (2 : ℚ) ^ (3 * k) = (8 : ℚ) ^ k := by
    rw [zpow_mul]; norm_num
  rw [h3, h2, ← div_zpow, ← mul_zpow]
  norm_num

lemma pow_nine_eighths_odd (k : ℤ) :
    (3 : ℚ) ^ (2 * k + 1) / (2 : ℚ) ^ (3 * k + 1) =
      (1.5 : ℚ) ^ (k + 1) * (0.75 : ℚ) ^ k := by
  have h3 : (3 : ℚ) ^ (2 * k + 1) = (9 : ℚ) ^ k * 3 := by
    rw [zpow_add_one₀ (by norm_num : (3 : ℚ) ≠ 0), zpow_mul]; norm_num
  have h2 : (2 : ℚ) ^ (3 * k + 1) = (8 : ℚ) ^ k * 2 := by
    rw [zpow_add_one₀ (by norm_num : (2 : ℚ) ≠ 0), zpow_mul]; norm_num
  have h15 : (1.5 : ℚ) ^ (k + 1) = (1.5 : ℚ) ^ k * 1.5 :=
    zpow_add_one₀ (by norm_num) _
  have h98 : (1.5 : ℚ) ^ k * (0.75 : ℚ) ^ k = ((9 : ℚ) / 8) ^ k := by
    rw [← mul_zpow]; norm_num
  have h8 : ((8 : ℚ) ^ k) ≠ 0 := zpow_ne_zero _ (by norm_num)
  rw [h3, h2, h15]
  calc (9 : ℚ) ^ k * 3 / ((8 : ℚ) ^ k * 2)
      = (9 : ℚ) ^ k / (8 : ℚ) ^ k * (3 / 2) := by ring
    _ = ((9 : ℚ) / 8) ^ k * (3 / 2) := by rw [div_zpow]
    _ = (1.5 : ℚ) ^ k * 1.5 * (0.75 : ℚ) ^ k := by rw [← h98]; ring

lemma rPart (r : ℤ) : (rNumer r : ℚ) / (rDenom r : ℚ) = rFreq r := by
  unfold rNumer rDenom rFreq
  rcases Int.even_or_odd r with ⟨k, hk⟩ | ⟨k, hk⟩
  · have hk2 : r = 2 * k := by omega
    subst hk2
    rw [show |2 * k| = 2 * |k| by rw [abs_mul]; norm_num,
      ceilHalf_two_mul, floorHalf_two_mul, ceilHalf_two_mul,
      if_neg (by omega : ¬(2 * |k|) % 2 = 1), if_neg (by omega : ¬(2 * k) % 2 = 1)]
    split_ifs with h
    · rw [sub_zero, cast_pow_toNat 3 (2 * k) (by omega),
        cast_pow_toNat 2 (k * 3) (by omega), show k * 3 = 3 * k by ring]
      exact pow_nine_eighths k
    · rw [sub_zero, abs_of_nonpos (by omega : k ≤ 0),
        cast_pow_toNat 2 (-k * 3) (by omega), cast_pow_toNat 3 (-(2 * k)) (by omega),
        show -k * 3 = -(3 * k) by ring, zpow_neg, zpow_neg, inv_div_inv]
      exact pow_nine_eighths k
  · subst hk
    rw [ceilHalf_two_mul_add_one, floorHalf_two_mul_add_one]
    by_cases h : (0 : ℤ) < 2 * k + 1
    · rw [if_pos h, if_pos h, if_pos (by omega : (2 * k + 1) % 2 = 1),
        cast_pow_toNat 3 (2 * k + 1) (by omega),
        cast_pow_toNat 2 ((k + 1) * 3 - 2) (by omega),
        show (k + 1) * 3 - 2 = 3 * k + 1 by ring]
      exact pow_nine_eighths_odd k
    · rw [if_neg h, if_neg h,
        show |2 * k + 1| = 2 * (-k - 1) + 1 by
          rw [abs_of_neg (by omega : 2 * k + 1 < 0)]; ring,
        ceilHalf_two_mul_add_one,
        if_pos (by omega : (2 * (-k - 1) + 1) % 2 = 1),
        cast_pow_toNat 2 ((-k - 1 + 1) * 3 - 1) (by omega),
        cast_pow_toNat 3 (-(2 * k + 1)) (by omega),
        show (-k - 1 + 1) * 3 - 1 = -(3 * k + 1) by ring,
        zpow_neg, zpow_neg, inv_div_inv]
      exact pow_nine_eighths_odd k

/-- Claim C6: the fraction label drawn by `drawHexagon` (numerator and
denominator built from powers of 2, 3, 4, 5 and reduced by
`simplifyFraction`) equals, as an exact rational, the ratio
`frequency(q, r) / baseFreq` computed by `playTone` with the same ratio
constants. -/
theorem label_matches_frequency (q r : ℤ) :
    ((simplifyFraction (numerator q r) (denominator q r)).1 : ℚ) /
      ((simplifyFraction (numerator q r) (denominator q r)).2 : ℚ) =
    frequency q r / baseFreq := by
  have hd : 0 < denominator q r := by
    unfold denominator qDenom rDenom
    split_ifs <;> positivity
  rw [simplifyFraction_val _ _ hd]
  unfold numerator denominator frequency
  rw [Nat.cast_mul, Nat.cast_mul, ← div_mul_div_comm, qPart, rPart]
  have hb : baseFreq ≠ 0 := by norm_num [baseFreq]
  rw [mul_comm baseFreq (qFreq q), mul_assoc, mul_div_assoc, mul_comm baseFreq _,
    mul_div_assoc, div_self hb, mul_one, qFreq]

/-! ### Tone-voice lifecycle, from `playTone` / `stopTone` in `app.js`

The two JavaScript `Map`s (`activeCells`, `cellColors`) are modelled as
association lists with set/delete semantics; oscillator voices are logged
in `voices`, where `live = true` means the oscillators of that voice have
been started and their stop has not been scheduled.  The oscillator /
gain-node wiring inside a voice carries no state relevant to the claims and
is abstracted into the single `VoiceRec`; the stored color value is its
hue (the remaining `hsla` components are constants). -/

/-- The cell key `` `${q},${r}` `` of `app.js`. -/
def cellKey (q r : ℤ) : String := toString q ++ "," ++ toString r

/-- `hue = (q * 30 + r * 50) % 360` from `playTone`; the JS `%` is the
truncating remainder (sign of the dividend), i.e. `Int.tmod`. -/
def hue (q r : ℤ) : ℤ := Int.tmod (q * 30 + r * 50) 360

/-- One oscillator voice: the id of the `playTone` call that started it,
its cell key, and whether it is still sounding (started, stop not yet
scheduled). -/
structure VoiceRec where
  vid : ℕ
  vkey : String
  live : Bool
  deriving DecidableEq

/-- The audio-relevant state of the `HexGrid` object. -/
structure ToneState where
  hasAudio : Bool
  activeCells : List (String × ℕ)
  cellColors : List (String × ℤ)
  voices : List VoiceRec
  nextId : ℕ
  deriving DecidableEq

/-- Fresh `HexGrid` state after the audio context has been created by the
first user gesture. -/
def initState : ToneState := ⟨true, [], [], [], 0⟩

/-- `stopTone(key)` from `app.js`: a no-op unless `activeCells` has the
key; otherwise the voice's oscillators get a scheduled stop (`live` becomes
`false`), the key is deleted from `activeCells` immediately and the color
overlay is removed (after its short fade, which we collapse into the same
step). -/
def stopTone (st : ToneState) (key : String) : ToneState :=
  match st.activeCells.lookup key with
  | none => st
  | some vid =>
    { st with
      activeCells := st.activeCells.filter fun p => p.1 != key
      voices := st.voices.map fun w =>
        if w.vid = vid then { w with live := false } else w
      cellColors := st.cellColors.filter fun p => p.1 != key }

/-- `playTone(q, r)` from `app.js`: silently a no-op without an audio
context; otherwise it first runs the stop path for the key, then starts a
fresh voice, stores it in `activeCells` and records the cell color. -/
def playTone (st : ToneState) (q r : ℤ) : ToneState :=
  if st.hasAudio = false then st
  else
    let key := cellKey q r
    let st1 := stopTone st key
    { st1 with
      voices := st1.voices ++ [⟨st1.nextId, key, true⟩]
      activeCells := (key, st1.nextId) :: st1.activeCells.filter fun p => p.1 != key
      cellColors := (key, hue q r) :: st1.cellColors.filter fun p => p.1 != key
      nextId := st1.nextId + 1 }

/-- The `playTone` / `stopTone` commands the input router can issue. -/
inductive ToneOp where
  | play (q r : ℤ)
  | stop (key : String)

def applyOp (st : ToneState) : ToneOp → ToneState
  | ToneOp.play q r => playTone st q r
  | ToneOp.stop key => stopTone st key

/-- Run a sequence of tone commands from the fresh state. -/
def run (ops : List ToneOp) : ToneState := ops.foldl applyOp initState

/-- Number of currently sounding voices bound to a key. -/
def liveVoices (st : ToneState) (key : String) : ℕ :=
  (st.voices.filter fun w => w.vkey == key && w.live).length

/-- Association-list lookup ignores a cons with a different key. -/
lemma lookup_cons_ne {α : Type} (m : List (String × α)) (key k : String)
    (v : α) (h : k ≠ key) : ((key, v) :: m).lookup k = m.lookup k := by
  simp [List.lookup, beq_false_of_ne h]

lemma lookup_cons_self {α : Type} (m : List (String × α)) (key : String)
    (v : α) : ((key, v) :: m).lookup key = some v := by
  simp [List.lookup]

/-- Deleting a key from an association list does not change other keys. -/
lemma lookup_filter_ne {α : Type} (m : List (String × α)) (key k : String)
    (h : k ≠ key) : (m.filter fun p => p.1 != key).lookup k = m.lookup k := by
  induction m with
  | nil => rfl
  | cons a t ih =>
    obtain ⟨a1, a2⟩ := a
    by_cases hk : a1 = key
    · subst hk
      simp only [List.filter_cons, bne_self_eq_false, Bool.false_eq_true,
        if_false, cond_false]
      rw [ih, lookup_cons_ne t a1 k a2 h]
    · simp only [List.filter_cons, bne_iff_ne, ne_eq, hk, not_false_eq_true,
        if_true, cond_true]
      by_cases hka : k = a1
      · subst hka
        rw [lookup_cons_self, lookup_cons_self]
      · rw [lookup_cons_ne _ _ _ _ hka, lookup_cons_ne _ _ _ _ hka, ih]

/-- Deleting a key from an association list removes it. -/
lemma lookup_filter_self {α : Type} (m : List (String × α)) (key : String) :
    (m.filter fun p => p.1 != key).lookup key = none := by
  induction m with
  | nil => rfl
  | cons a t ih =>
    obtain ⟨a1, a2⟩ := a
    by_cases hk : a1 = key
    · subst hk
      simpa [List.filter_cons] using ih
    · simp only [List.filter_cons, bne_iff_ne, ne_eq, hk, not_false_eq_true,
        if_true, cond_true]
      rw [lookup_cons_ne _ _ _ _ (Ne.symm hk), ih]

/-- The voice-bookkeeping invariant: voice ids are fresh and distinct, every
sounding voice is the registered voice of its key, and every registered key
has exactly that sounding voice. -/
structure Inv (st : ToneState) : Prop where
  vid_lt : ∀ w ∈ st.voices, w.vid < st.nextId
  vid_nodup : (st.voices.map VoiceRec.vid).Nodup
  live_active : ∀ w ∈ st.voices, w.live = true →
    st.activeCells.lookup w.vkey = some w.vid
  active_live : ∀ k v, st.activeCells.lookup k = some v →
    ∃ w ∈ st.voices, w.vid = v ∧ w.vkey = k ∧ w.live = true

lemma inv_initState : Inv initState := by
  constructor <;> simp [initState]

lemma stopTone_hasAudio (st : ToneState) (key : String) :
    (stopTone st key).hasAudio = st.hasAudio := by
  unfold stopTone
  rcases st.activeCells.lookup key with _ | v <;> rfl

lemma stopTone_nextId (st : ToneState) (key : String) :
    (stopTone st key).nextId = st.nextId := by
  unfold stopTone
  rcases st.activeCells.lookup key with _ | v <;> rfl

lemma stopTone_lookup_none (st : ToneState) (key : String) :
    (stopTone st key).activeCells.lookup key = none := by
  unfold stopTone
  rcases hl : st.activeCells.lookup key with _ | v
  · exact hl
  · exact lookup_filter_self _ _

lemma stopTone_inv (st : ToneState) (key : String) (h : Inv st) :
    Inv (stopTone st key) := by
  unfold stopTone
  rcases hl : st.activeCells.lookup key with _ | vid
  · exact h
  · obtain ⟨w0, hw0V, hw0vid, hw0key, hw0live⟩ := h.active_live key vid hl
    have hinj := List.inj_on_of_nodup_map h.vid_nodup
    constructor
    · intro w' hw'
      obtain ⟨w, hwV, rfl⟩ := List.mem_map.mp hw'
      have : (if w.vid = vid then { w with live := false } else w).vid = w.vid := by
        split <;> rfl
      rw [this]
      exact h.vid_lt w hwV
    · rw [List.map_map]
      have hco : (VoiceRec.vid ∘ fun w =>
          if w.vid = vid then { w with live := false } else w) = VoiceRec.vid := by
        funext w
        by_cases c : w.vid = vid <;> simp [Function.comp, c]
      rw [hco]
      exact h.vid_nodup
    · intro w' hw' hlive
      obtain ⟨w, hwV, rfl⟩ := List.mem_map.mp hw'
      by_cases c : w.vid = vid
      · simp [c] at hlive
      · simp only [c, if_false] at hlive ⊢
        have hkv := h.live_active w hwV hlive
        have hne : w.vkey ≠ key := by
          intro hk
          rw [hk, hl] at hkv
          exact c (Option.some.inj hkv).symm
        rw [lookup_filter_ne _ _ _ hne]
        exact hkv
    · intro k v hkv
      have hne : k ≠ key := by
        intro hk
        rw [hk, lookup_filter_self] at hkv
        exact Option.noConfusion hkv
      rw [lookup_filter_ne _ _ _ hne] at hkv
      obtain ⟨w, hwV, hvid, hkey, hlive⟩ := h.active_live k v hkv
      have hwvid : w.vid ≠ vid := by
        intro hvv
        have : w = w0 := hinj hwV hw0V (by rw [hvv, hw0vid])
        rw [this, hw0key] at hkey
        exact hne hkey.symm
      refine ⟨w, ?_, hvid, hkey, hlive⟩
      have hmem := List.mem_map_of_mem
        (fun w => if w.vid = vid then { w with live := false } else w) hwV
      simpa [hwvid] using hmem

lemma playTone_hasAudio (st : ToneState) (q r : ℤ) :
    (playTone st q r).hasAudio = st.hasAudio := by
  unfold playTone
  split_ifs with h
  · rfl
  · simp [stopTone_hasAudio]

lemma playTone_inv (st : ToneState) (q r : ℤ) (h : Inv st) :
    Inv (playTone st q r) := by
  unfold playTone
  split_ifs with hctx
  · exact h
  · have h1 : Inv (stopTone st (cellKey q r)) := stopTone_inv st (cellKey q r) h
    have hnone : (stopTone st (cellKey q r)).activeCells.lookup (cellKey q r) = none :=
      stopTone_lookup_none st (cellKey q r)
    set st1 := stopTone st (cellKey q r) with hst1
    constructor
    · intro w hw
      rcases List.mem_append.mp hw with hw | hw
      · exact Nat.lt_succ_of_lt (h1.vid_lt w hw)
      · rw [List.mem_singleton.mp hw]
        exact Nat.lt_succ_self _
    · rw [List.map_append]
      refine List.Nodup.append h1.vid_nodup (by simp) ?_
      intro a ha hb
      simp only [List.map_cons, List.map_nil, List.mem_singleton] at hb
      obtain ⟨w, hwV, rfl⟩ := List.mem_map.mp ha
      exact absurd (hb ▸ h1.vid_lt w hwV) (lt_irrefl _)
    · intro w hw hlive
      rcases List.mem_append.mp hw with hw | hw
      · have hkv := h1.live_active w hw hlive
        have hne : w.vkey ≠ cellKey q r := by
          intro hk
          rw [hk, hnone] at hkv
          exact Option.noConfusion hkv
        rw [lookup_cons_ne _ _ _ _ hne, lookup_filter_ne _ _ _ hne]
        exact hkv
      · rw [List.mem_singleton.mp hw]
        exact lookup_cons_self _ _ _
    · intro k v hkv
      by_cases hk : k = cellKey q r
      · subst hk
        rw [lookup_cons_self] at hkv
        refine ⟨⟨st1.nextId, cellKey q r, true⟩, ?_, Option.some.inj hkv, rfl, rfl⟩
        exact List.mem_append_right _ (List.mem_singleton.mpr rfl)
      · rw [lookup_cons_ne _ _ _ _ hk, lookup_filter_ne _ _ _ hk] at hkv
        obtain ⟨w, hwV, hvid, hkey, hlive⟩ := h1.active_live k v hkv
        exact ⟨w, List.mem_append_left _ hwV, hvid, hkey, hlive⟩

lemma applyOp_inv (st : ToneState) (op : ToneOp) (h : Inv st) :
    Inv (applyOp st op) := by
  cases op with
  | play q r => exact playTone_inv st q r h
  | stop key => exact stopTone_inv st key h

lemma applyOp_hasAudio (st : ToneState) (op : ToneOp) :
    (applyOp st op).hasAudio = st.hasAudio := by
  cases op with
  | play q r => exact playTone_hasAudio st q r
  | stop key => exact stopTone_hasAudio st key

lemma foldl_inv : ∀ (l : List ToneOp) (st : ToneState), Inv st →
    Inv (l.foldl applyOp st) := by
  intro l
  induction l with
  | nil => intro st h; exact h
  | cons op t ih => intro st h; exact ih _ (applyOp_inv st op h)

lemma foldl_hasAudio : ∀ (l : List ToneOp) (st : ToneState),
    (l.foldl applyOp st).hasAudio = st.hasAudio := by
  intro l
  induction l with
  | nil => intro st; rfl
  | cons op t ih => intro st; rw [List.foldl_cons, ih, applyOp_hasAudio]

lemma inv_run (ops : List ToneOp) : Inv (run ops) :=
  foldl_inv ops initState inv_initState

lemma hasAudio_run (ops : List ToneOp) : (run ops).hasAudio = true :=
  foldl_hasAudio ops initState

lemma length_le_one_of_all_eq (l : List VoiceRec) (v : ℕ)
    (hnd : (l.map VoiceRec.vid).Nodup) (hall : ∀ w ∈ l, w.vid = v) :
    l.length ≤ 1 := by
  match l with
  | [] => simp
  | [w] => simp
  | w1 :: w2 :: t =>
    exfalso
    rw [List.map_cons, List.nodup_cons] at hnd
    apply hnd.1
    rw [hall w1 (by simp), ← hall w2 (by simp)]
    exact List.mem_cons_self _ _

lemma liveVoices_le_one (st : ToneState) (h : Inv st) (k : String) :
    liveVoices st k ≤ 1 := by
  unfold liveVoices
  rcases hl : st.activeCells.lookup k with _ | v
  · have hempty : st.voices.filter (fun w => w.vkey == k && w.live) = [] := by
      rw [List.filter_eq_nil_iff]
      intro w hw hpw
      simp only [Bool.and_eq_true, beq_iff_eq] at hpw
      have := h.live_active w hw hpw.2
      rw [hpw.1, hl] at this
      exact Option.noConfusion this
    simp [hempty]
  · apply length_le_one_of_all_eq _ v
    · exact ((List.filter_sublist _).map VoiceRec.vid).nodup h.vid_nodup
    · intro w hw
      rw [List.mem_filter] at hw
      simp only [Bool.and_eq_true, beq_iff_eq] at hw
      have := h.live_active w hw.1 hw.2.2
      rw [hw.2.1, hl] at this
      exact (Option.some.inj this).symm

lemma liveVoices_eq_one (st : ToneState) (h : Inv st) (k : String) (v : ℕ)
    (hl : st.activeCells.lookup k = some v) : liveVoices st k = 1 := by
  refine le_antisymm (liveVoices_le_one st h k) ?_
  obtain ⟨w, hwV, hvid, hkey, hlive⟩ := h.active_live k v hl
  have hmem : w ∈ st.voices.filter (fun w => w.vkey == k && w.live) :=
    List.mem_filter.mpr ⟨hwV, by simp [hkey, hlive]⟩
  unfold liveVoices
  have := List.length_pos.mpr (List.ne_nil_of_mem hmem)
  omega

lemma playTone_lookup_self (st : ToneState) (q r : ℤ)
    (haud : st.hasAudio = true) :
    (playTone st q r).activeCells.lookup (cellKey q r) =
      some (stopTone st (cellKey q r)).nextId := by
  simp only [playTone, haud, Bool.true_eq_false, if_false]
  exact lookup_cons_self _ _ _

/-- Claim C3: over every sequence of `playTone` / `stopTone` calls the
active-voice bookkeeping holds at most one sounding voice per key at any
instant, and playing the same cell twice in succession leaves exactly one
sounding voice for that key (because `playTone` always runs the stop path
for the key before starting the new voice). -/
theorem playTone_voice_exclusive :
    (∀ (ops : List ToneOp) (k : String), liveVoices (run ops) k ≤ 1) ∧
    (∀ (ops : List ToneOp) (q r : ℤ),
      liveVoices (run (ops ++ [ToneOp.play q r, ToneOp.play q r]))
        (cellKey q r) = 1) := by
  constructor
  · intro ops k
    exact liveVoices_le_one _ (inv_run ops) k
  · intro ops q r
    have hst : Inv (run ops) := inv_run ops
    have haud2 : (playTone (run ops) q r).hasAudio = true := by
      rw [playTone_hasAudio]
      exact hasAudio_run ops
    have hrun : run (ops ++ [ToneOp.play q r, ToneOp.play q r]) =
        playTone (playTone (run ops) q r) q r := by
      unfold run
      rw [List.foldl_append]
      rfl
    rw [hrun]
    exact liveVoices_eq_one _
      (playTone_inv _ q r (playTone_inv _ q r hst)) _ _
      (playTone_lookup_self (playTone (run ops) q r) q r haud2)

/-- Claim C4: `stopTone` on a key with no active voice (including keys that
were never played) is a no-op: no error, and the whole state — in
particular the active-voice map and the color-overlay map — is unchanged. -/
theorem stopTone_idle_noop (st : ToneState) (key : String)
    (h : st.activeCells.lookup key = none) : stopTone st key = st := by
  unfold stopTone
  rw [h]

/-- Witness for C4: stopping the never-played key `"0,0"` in the fresh
state changes nothing. -/
theorem stopTone_idle_noop_witness :
    initState.activeCells.lookup (cellKey 0 0) = none ∧
    stopTone initState (cellKey 0 0) = initState :=
  ⟨rfl, stopTone_idle_noop initState (cellKey 0 0) rfl⟩

/-- Claim C10 as stated is false: the hue is the truncating remainder, so a
negative multiple of 360 yields hue `0`, not a negative hue.  At
`q = -12, r = 0` the sum `q*30 + r*50 = -360` is negative yet the hue is
`0`. -/
theorem hue_negative_counterexample :
    (-12 : ℤ) * 30 + (0 : ℤ) * 50 < 0 ∧ ¬ hue (-12) 0 < 0 := by
  exact ⟨by decide, by decide⟩

lemma neg_tmod_eq (a b : ℤ) : Int.tmod (-a) b = -Int.tmod a b := by
  rw [Int.tmod_def, Int.tmod_def, Int.neg_tdiv]
  ring

/-- Claim C10, amended: the color stored when a voice starts is the
deterministic hue `(q*30 + r*50) % 360` with the JS truncating `%`; when
`q*30 + r*50` is negative the hue is nonpositive, and strictly negative
whenever the sum is not an exact multiple of 360 — so the hue is not
normalized into `[0, 360)`. -/
theorem hue_not_normalized (st : ToneState) (q r : ℤ)
    (hctx : st.hasAudio = true) (hneg : q * 30 + r * 50 < 0) :
    (playTone st q r).cellColors.lookup (cellKey q r) = some (hue q r) ∧
    hue q r ≤ 0 ∧
    (¬ (360 : ℤ) ∣ (q * 30 + r * 50) → hue q r < 0) := by
  have hcolor : (playTone st q r).cellColors.lookup (cellKey q r) =
      some (hue q r) := by
    simp only [playTone, hctx, Bool.true_eq_false, if_false]
    exact lookup_cons_self _ _ _
  have htm : hue q r = -((-(q * 30 + r * 50)) % 360) := by
    have h1 := neg_tmod_eq (q * 30 + r * 50) 360
    have h2 : Int.tmod (-(q * 30 + r * 50)) 360 = (-(q * 30 + r * 50)) % 360 :=
      Int.tmod_eq_emod (by omega) (by norm_num)
    unfold hue
    omega
  refine ⟨hcolor, by rw [htm]; omega, ?_⟩
  intro hdvd
  have hne : (-(q * 30 + r * 50)) % 360 ≠ 0 := fun h0 =>
    hdvd (Int.dvd_neg.mp (Int.dvd_of_emod_eq_zero h0))
  rw [htm]
  omega

/-- Witness for the amended C10 at `q = -1, r = 0` in the fresh state:
the stored hue is `-30`, which is negative. -/
theorem hue_not_normalized_witness :
    (initState.hasAudio = true ∧ (-1 : ℤ) * 30 + (0 : ℤ) * 50 < 0) ∧
    ((playTone initState (-1) 0).cellColors.lookup (cellKey (-1) 0) =
        some (hue (-1) 0) ∧
      hue (-1) 0 ≤ 0 ∧
      (¬ (360 : ℤ) ∣ ((-1) * 30 + 0 * 50) → hue (-1) 0 < 0)) :=
  ⟨⟨rfl, by decide⟩, hue_not_normalized initState (-1) 0 rfl (by decide)⟩

end Tonnetz
